import Mathlib

/-!
# Thunderstorm Detection and Tracking (DATing) — verification development

The repository's visible code (`examples/thunderstorm_detection_and_tracking.py`)
is a driver that calls `tstorm_detect.detection` (single-frame cell detection)
and `tstorm_dating.dating` (multi-frame tracking).  The bodies of those two
routines are not part of the repository excerpt; following the specification's
component design (Segmenter, Cell Extractor, Motion Estimator, Track Associator,
Track Store) we model them here as executable Lean functions and prove the
specification's testable properties about the model.

Conventions of the embedding:
* numeric grid values and distances are rationals (`ℚ`) — every value is finite;
* a grid is an `NDArray`: an explicit shape plus row-major data, so that the
  "2-D input" validation of the Segmenter is expressible;
* connected-component labeling uses 8-connectivity with components emitted in
  row-major scan order of their first pixel (a fixed, documented policy);
* the association gate uses the Chebyshev distance between the predicted and
  the observed centroid.
-/

namespace Tstorm

/-- Modelled from the spec: the error outcomes of the (missing) core
`tstorm_detect` / `tstorm_dating` modules — an input-validation failure for a
malformed grid, and the insufficient-history failure of the tracking entry
point. -/
inductive PipeError where
  | insufficientHistory
  | invalidInput
deriving DecidableEq, Repr

/-- Modelled from the spec: a numeric array with an explicit shape (rank =
`shape.length`) and row-major `data`, standing in for the NumPy arrays the
missing core consumes. -/
structure NDArray where
  shape : List Nat
  data : List ℚ
deriving DecidableEq, Repr

/-- Modelled from the spec: the Mask produced by the Segmenter — a boolean
array with the same shape as the originating Grid. -/
structure MaskArr where
  shape : List Nat
  data : List Bool
deriving DecidableEq, Repr

/-- Modelled from the spec: the global configuration of the (missing) core —
fixed-mode threshold, minimum cell size, association gate and miss tolerance.
(The dynamic-threshold policy is explicitly unobservable per the spec's open
question, so the model fixes the threshold mode to `fixed`.) -/
structure Config where
  thr : ℚ
  minsize : Nat
  gate : ℚ
  maxMiss : Nat
deriving DecidableEq, Repr

/-- Modelled from the spec: the Segmenter.  Every element `≥ thr` is
foreground; the result has the Grid's shape; a grid whose rank is not 2 is
rejected with an input-validation error. -/
def segment (g : NDArray) (thr : ℚ) : Except PipeError MaskArr :=
  if g.shape.length = 2 then
    Except.ok ⟨g.shape, g.data.map (fun x => decide (thr ≤ x))⟩
  else
    Except.error PipeError.invalidInput

/-- Number of rows and columns of a (rank-2) array. -/
def dims (g : NDArray) : Nat × Nat := (g.shape.getD 0 0, g.shape.getD 1 0)

/-- Row-major lookup of a pixel value (0 outside the stored data). -/
def entry (g : NDArray) (p : Nat × Nat) : ℚ :=
  g.data.getD (p.1 * (dims g).2 + p.2) 0

/-- All pixel positions of an `r × c` frame, in row-major order. -/
def allPos (r c : Nat) : List (Nat × Nat) :=
  (List.range r).flatMap (fun i => (List.range c).map (fun j => (i, j)))

/-- Foreground pixels of a grid at a threshold, in row-major order. -/
def fgList (g : NDArray) (thr : ℚ) : List (Nat × Nat) :=
  (allPos (dims g).1 (dims g).2).filter (fun p => decide (thr ≤ entry g p))

/-- 8-connectivity adjacency of two pixel positions. -/
def adj (p q : Nat × Nat) : Bool :=
  decide (p ≠ q) &&
  decide (max p.1 q.1 - min p.1 q.1 ≤ 1) &&
  decide (max p.2 q.2 - min p.2 q.2 ≤ 1)

/-- One fuel-bounded flood-fill: grows `comp` by all pixels of `rest` adjacent
to it, returning the completed component and the untouched remainder. -/
def grow (fuel : Nat) (comp rest : List (Nat × Nat)) :
    List (Nat × Nat) × List (Nat × Nat) :=
  match fuel with
  | 0 => (comp, rest)
  | fuel + 1 =>
    let newPts := rest.filter (fun q => comp.any (fun p => adj p q))
    if newPts.isEmpty then (comp, rest)
    else grow fuel (comp ++ newPts) (rest.filter (fun q => !comp.any (fun p => adj p q)))

/-- Modelled from the spec: connected-component labeling (8-connectivity).
Components are emitted in row-major scan order of their first pixel; `fuel`
is instantiated with the number of foreground pixels. -/
def components (fuel : Nat) (pts : List (Nat × Nat)) : List (List (Nat × Nat)) :=
  match fuel, pts with
  | 0, _ => []
  | _, [] => []
  | fuel + 1, p :: rest =>
    let cr := grow (rest.length + 1) [p] rest
    cr.1 :: components fuel cr.2

/-- Sum of the row coordinates of a pixel list, as a rational. -/
def sumRows (pts : List (Nat × Nat)) : ℚ := (pts.map (fun p => (p.1 : ℚ))).sum

/-- Sum of the column coordinates of a pixel list, as a rational. -/
def sumCols (pts : List (Nat × Nat)) : ℚ := (pts.map (fun p => (p.2 : ℚ))).sum

/-- Centroid (mean row, mean column) of a component. -/
def centroidOf (pts : List (Nat × Nat)) : ℚ × ℚ :=
  (sumRows pts / pts.length, sumCols pts / pts.length)

/-- Maximum intensity of a component (0 for the empty list, which never
arises for an actual component). -/
def maxIntensity (g : NDArray) (pts : List (Nat × Nat)) : ℚ :=
  match pts.map (entry g) with
  | [] => 0
  | v :: vs => vs.foldl max v

/-- Mean intensity of a component. -/
def meanIntensity (g : NDArray) (pts : List (Nat × Nat)) : ℚ :=
  (pts.map (entry g)).sum / pts.length

/-- Modelled from the spec: one detected Cell — per-frame label, centroid,
area, intensity summary, timestamp, and the component's pixel list. -/
structure Cell where
  label : Nat
  centroid : ℚ × ℚ
  area : Nat
  maxInt : ℚ
  meanInt : ℚ
  time : Nat
  points : List (Nat × Nat)
deriving DecidableEq, Repr

/-- Pair every element of a list with consecutive indices starting at `n`. -/
def enumFromN (n : Nat) : List α → List (Nat × α)
  | [] => []
  | a :: l => (n, a) :: enumFromN (n + 1) l

/-- Label of a pixel in the produced label array: `k` when the pixel lies in
the `k`-th kept component, 0 for background or discarded pixels. -/
def labelAt (keep : List (List (Nat × Nat))) (p : Nat × Nat) : Nat :=
  match keep.findIdx? (fun comp => comp.any (fun q => decide (q = p))) with
  | some i => i + 1
  | none => 0

/-- Modelled from the spec: the Cell Extractor.  Components of the foreground
with area `≥ minsize` become Cells (labels 1, 2, … in scan order); smaller
components are discarded entirely.  Also returns the integer label array. -/
def extractCells (g : NDArray) (thr : ℚ) (minsize : Nat) (time : Nat) :
    List Cell × List (List Nat) :=
  let pts := fgList g thr
  let comps := components pts.length pts
  let keep := comps.filter (fun comp => decide (minsize ≤ comp.length))
  let cells := (enumFromN 1 keep).map (fun ic =>
    { label := ic.1
      centroid := centroidOf ic.2
      area := ic.2.length
      maxInt := maxIntensity g ic.2
      meanInt := meanIntensity g ic.2
      time := time
      points := ic.2 : Cell })
  let labels := (List.range (dims g).1).map (fun i =>
    (List.range (dims g).2).map (fun j => labelAt keep (i, j)))
  (cells, labels)

/-- Modelled from the spec: the single-frame detection entry point
(`tstorm_detect.detection`): Segmenter then Cell Extractor; fails on a
malformed (non-2-D) grid and otherwise returns the Cell list together with
the label array. -/
def detection (g : NDArray) (time : Nat) (cfg : Config) :
    Except PipeError (List Cell × List (List Nat)) :=
  match segment g cfg.thr with
  | Except.error e => Except.error e
  | Except.ok _ => Except.ok (extractCells g cfg.thr cfg.minsize time)

/-- Modelled from the spec: track status — `active` (matched within the
lookback window) or `terminated`. -/
inductive TrackStatus where
  | active
  | terminated
deriving DecidableEq, Repr

/-- Modelled from the spec: one row of a Track's Cell sequence.  Each row
carries the track ID it was written under (mirroring the per-row `ID` column
of the tracker's output tables) together with the Cell. -/
structure CellRow where
  id : Nat
  cell : Cell
deriving DecidableEq, Repr

/-- Modelled from the spec: a Track — globally unique ID, ordered Cell
sequence (insertion order = time order), status, and the current count of
consecutive missed frames. -/
structure Track where
  id : Nat
  cells : List CellRow
  status : TrackStatus
  misses : Nat
deriving DecidableEq, Repr

/-- Modelled from the spec: the Track Store — the canonical list of active
and terminated tracks plus the monotonically increasing next-ID allocator. -/
structure Store where
  tracks : List Track
  nextId : Nat
deriving DecidableEq, Repr

/-- Chebyshev distance between two points, used as the association metric. -/
def cheb (p q : ℚ × ℚ) : ℚ := max |p.1 - q.1| |p.2 - q.2|

/-- Centroid of a track's most recent Cell ( (0,0) for the never-occurring
empty track). -/
def lastCentroid (t : Track) : ℚ × ℚ :=
  match t.cells.getLast? with
  | some r => r.cell.centroid
  | none => (0, 0)

/-- Predicted position of a track in the current frame: its last centroid
advected by the motion estimate. -/
def predict (m : ℚ × ℚ) (t : Track) : ℚ × ℚ :=
  ((lastCentroid t).1 + m.1, (lastCentroid t).2 + m.2)

/-- Modelled from the spec: nearest-distance candidate selection for one
track — the detected Cell within the gate minimizing the distance to the
track's prediction, ties broken by the lower per-frame label.  Returns the
Cell together with its distance. -/
def bestMatch (cfg : Config) (m : ℚ × ℚ) (t : Track) : List Cell → Option (Cell × ℚ)
  | [] => none
  | c :: cs =>
    let rest := bestMatch cfg m t cs
    let d := cheb (predict m t) c.centroid
    if d ≤ cfg.gate then
      match rest with
      | none => some (c, d)
      | some cd =>
        if d < cd.2 ∨ (d = cd.2 ∧ c.label < cd.1.label) then some (c, d) else some cd
    else rest

/-- The Cell a track would claim in the current frame, if any. -/
def matchedCell (cfg : Config) (m : ℚ × ℚ) (cs : List Cell) (t : Track) : Option Cell :=
  (bestMatch cfg m t cs).map Prod.fst

/-- All active tracks whose claimed Cell is `c` (the merge candidates for
`c`). -/
def claimants (cfg : Config) (m : ℚ × ℚ) (cs : List Cell) (tracks : List Track)
    (c : Cell) : List Track :=
  tracks.filter (fun t =>
    decide (t.status = TrackStatus.active ∧ matchedCell cfg m cs t = some c))

/-- Merge priority: a track beats another when its history is longer, ties
broken by the lower (older) track ID. -/
def betterClaim (a b : Track) : Bool :=
  decide (b.cells.length < a.cells.length ∨
    (a.cells.length = b.cells.length ∧ a.id < b.id))

/-- The surviving track among a list of merge candidates. -/
def pickWinner : List Track → Option Track
  | [] => none
  | t :: ts =>
    match pickWinner ts with
    | none => some t
    | some u => if betterClaim u t then some u else some t

/-- ID of the track that survives a merge onto Cell `c`. -/
def winnerId (cfg : Config) (m : ℚ × ℚ) (cs : List Cell) (tracks : List Track)
    (c : Cell) : Option Nat :=
  (pickWinner (claimants cfg m cs tracks c)).map Track.id

/-- Modelled from the spec: the per-track transition of the Track Associator.
A terminated track is left untouched; an active track with no Cell inside the
gate accrues one miss (terminating once the miss tolerance is exceeded); an
active track whose claimed Cell it wins is extended with that Cell (misses
reset); an active track that loses its claimed Cell to a longer-history track
is terminated at this frame (merge). -/
def updateTrack (cfg : Config) (m : ℚ × ℚ) (cs : List Cell) (tracks : List Track)
    (t : Track) : Track :=
  if t.status = TrackStatus.terminated then t
  else
    match matchedCell cfg m cs t with
    | none =>
      { t with misses := t.misses + 1
               status := if cfg.maxMiss < t.misses + 1 then TrackStatus.terminated
                         else TrackStatus.active }
    | some c =>
      if winnerId cfg m cs tracks c = some t.id then
        { t with cells := t.cells ++ [⟨t.id, c⟩], misses := 0 }
      else
        { t with status := TrackStatus.terminated }

/-- Modelled from the spec: one frame of the Track Associator acting on the
Track Store.  Every existing track is updated; every detected Cell claimed by
no active track (including the farther Cell of a split) is born as a new
track under a freshly allocated ID; the ID allocator advances by the number
of births. -/
def stepStore (cfg : Config) (m : ℚ × ℚ) (cs : List Cell) (st : Store) : Store :=
  let updated := st.tracks.map (updateTrack cfg m cs st.tracks)
  let births := cs.filter (fun c => decide (claimants cfg m cs st.tracks c = []))
  let newTracks := (enumFromN st.nextId births).map (fun ic =>
    { id := ic.1
      cells := [⟨ic.1, ic.2⟩]
      status := TrackStatus.active
      misses := 0 : Track })
  { tracks := updated ++ newTracks, nextId := st.nextId + births.length }

/-- Mean centroid of a frame's detected Cells. -/
def meanCentroid (cs : List Cell) : ℚ × ℚ :=
  ((cs.map (fun c => c.centroid.1)).sum / cs.length,
   (cs.map (fun c => c.centroid.2)).sum / cs.length)

/-- Modelled from the spec: the Motion Estimator — the displacement of the
mean detected centroid between two consecutive frames, falling back to the
zero field when either frame has no detections (degenerate case). -/
def motionEstimate (prev cur : List Cell) : ℚ × ℚ :=
  if prev.isEmpty || cur.isEmpty then (0, 0)
  else ((meanCentroid cur).1 - (meanCentroid prev).1,
        (meanCentroid cur).2 - (meanCentroid prev).2)

/-- Modelled from the spec: the sequential tracking loop.  The two most
recent detections seed the Motion Estimator; each further frame is associated
against the store using the motion estimated from the two frames before it. -/
def loop (cfg : Config) : List Cell → List Cell → List (List Cell) → Store → Store
  | _, _, [], st => st
  | p, q, c :: rest, st => loop cfg q c rest (stepStore cfg (motionEstimate p q) c st)

/-- Run detection on every frame of the video (frame `i` paired with the
`i`-th timestamp), failing fast on the first malformed frame. -/
def detectAll (cfg : Config) (ts : List Nat) :
    List NDArray → Nat → Except PipeError (List (List Cell × List (List Nat)))
  | [], _ => Except.ok []
  | g :: gs, i =>
    match detection g (ts.getD i 0) cfg with
    | Except.error e => Except.error e
    | Except.ok d =>
      match detectAll cfg ts gs (i + 1) with
      | Except.error e => Except.error e
      | Except.ok ds => Except.ok (d :: ds)

/-- Modelled from the spec: the full result of the tracking entry point —
the Track list plus the per-frame Cell lists and label arrays. -/
structure DatingResult where
  tracks : List Track
  cells : List (List Cell)
  labels : List (List (List Nat))
deriving DecidableEq, Repr

/-- Modelled from the spec: the tracking entry point (`tstorm_dating.dating`).
A sequence of fewer than 3 frames fails with the insufficient-history error;
otherwise every frame is detected, the first two frames only seed the Motion
Estimator, and the remaining frames are processed sequentially through the
Track Associator starting from an empty Track Store. -/
def dating (v : List NDArray) (ts : List Nat) (cfg : Config) :
    Except PipeError DatingResult :=
  if v.length < 3 then Except.error PipeError.insufficientHistory
  else
    match detectAll cfg ts v 0 with
    | Except.error e => Except.error e
    | Except.ok dets =>
      let cellLists := dets.map Prod.fst
      let labelLists := dets.map Prod.snd
      match cellLists with
      | d0 :: d1 :: rest =>
        Except.ok ⟨(loop cfg d0 d1 rest ⟨[], 0⟩).tracks, cellLists, labelLists⟩
      | _ => Except.ok ⟨[], cellLists, labelLists⟩

/-! ## Basic lemmas about the embedding -/

instance exceptDecEq {ε α : Type} [DecidableEq ε] [DecidableEq α] :
    DecidableEq (Except ε α) := fun a b =>
  match a, b with
  | Except.error e1, Except.error e2 =>
    if h : e1 = e2 then isTrue (by rw [h]) else isFalse (fun hh => by injection hh; exact h ‹_›)
  | Except.ok x, Except.ok y =>
    if h : x = y then isTrue (by rw [h]) else isFalse (fun hh => by injection hh; exact h ‹_›)
  | Except.error _, Except.ok _ => isFalse (fun hh => Except.noConfusion hh)
  | Except.ok _, Except.error _ => isFalse (fun hh => Except.noConfusion hh)

lemma segment_error_eq {g : NDArray} {thr : ℚ} {e : PipeError}
    (h : segment g thr = Except.error e) : e = PipeError.invalidInput := by
  unfold segment at h
  split at h
  · exact Except.noConfusion h
  · injection h with h2
    exact h2.symm

lemma detection_error_eq {g : NDArray} {t : Nat} {cfg : Config} {e : PipeError}
    (h : detection g t cfg = Except.error e) : e = PipeError.invalidInput := by
  unfold detection at h
  cases hs : segment g cfg.thr with
  | error e0 =>
    rw [hs] at h
    injection h with h2
    subst h2
    exact segment_error_eq hs
  | ok m => rw [hs] at h; exact Except.noConfusion h

lemma detectAll_error_eq {cfg : Config} {ts : List Nat} :
    ∀ (gs : List NDArray) (i : Nat) {e : PipeError},
      detectAll cfg ts gs i = Except.error e → e = PipeError.invalidInput := by
  intro gs
  induction gs with
  | nil => intro i e h; exact Except.noConfusion h
  | cons g gs ih =>
    intro i e h
    unfold detectAll at h
    cases hd : detection g (ts.getD i 0) cfg with
    | error e0 =>
      rw [hd] at h
      injection h with h2
      subst h2
      exact detection_error_eq hd
    | ok d =>
      rw [hd] at h
      cases hr : detectAll cfg ts gs (i + 1) with
      | error e1 =>
        rw [hr] at h
        injection h with h2
        subst h2
        exact ih (i + 1) hr
      | ok ds => rw [hr] at h; exact Except.noConfusion h

lemma enumFromN_mem {α : Type} :
    ∀ {l : List α} {n : Nat} {p : Nat × α}, p ∈ enumFromN n l →
      n ≤ p.1 ∧ p.1 < n + l.length ∧ p.2 ∈ l := by
  intro l
  induction l with
  | nil => intro n p h; exact absurd h (by simp [enumFromN])
  | cons a l ih =>
    intro n p h
    rw [enumFromN] at h
    rcases List.mem_cons.mp h with h | h
    · subst h
      exact ⟨le_refl n, by simp, by simp⟩
    · obtain ⟨h1, h2, h3⟩ := ih h
      exact ⟨by omega, by simp; omega, List.mem_cons_of_mem _ h3⟩

lemma enumFromN_map_fst {α : Type} :
    ∀ (l : List α) (n : Nat), (enumFromN n l).map Prod.fst = List.range' n l.length := by
  intro l
  induction l with
  | nil => intro n; rfl
  | cons a l ih =>
    intro n
    rw [enumFromN, List.map_cons, ih, List.length_cons, List.range'_succ]

lemma enumFromN_length {α : Type} :
    ∀ (l : List α) (n : Nat), (enumFromN n l).length = l.length := by
  intro l
  induction l with
  | nil => intro n; rfl
  | cons a l ih => intro n; rw [enumFromN, List.length_cons, ih, List.length_cons]

lemma updateTrack_id (cfg : Config) (m : ℚ × ℚ) (cs : List Cell)
    (tracks : List Track) (t : Track) :
    (updateTrack cfg m cs tracks t).id = t.id := by
  unfold updateTrack
  split
  · rfl
  · cases matchedCell cfg m cs t with
    | none => rfl
    | some c =>
      dsimp only
      split
      · rfl
      · rfl

lemma updateTrack_cells_eq (cfg : Config) (m : ℚ × ℚ) (cs : List Cell)
    (tracks : List Track) (t : Track) :
    (updateTrack cfg m cs tracks t).cells = t.cells ∨
    ∃ c, matchedCell cfg m cs t = some c ∧
      (updateTrack cfg m cs tracks t).cells = t.cells ++ [⟨t.id, c⟩] := by
  unfold updateTrack
  split
  · exact Or.inl rfl
  · cases hm : matchedCell cfg m cs t with
    | none => exact Or.inl rfl
    | some c =>
      dsimp only
      split
      · exact Or.inr ⟨c, rfl, rfl⟩
      · exact Or.inl rfl

lemma bestMatch_mem (cfg : Config) (m : ℚ × ℚ) (t : Track) :
    ∀ (cs : List Cell) (c : Cell) (d : ℚ), bestMatch cfg m t cs = some (c, d) → c ∈ cs := by
  intro cs
  induction cs with
  | nil => intro c d h; exact Option.noConfusion h
  | cons a l ih =>
    intro c d h
    rw [bestMatch] at h
    split at h
    · cases hr : bestMatch cfg m t l with
      | none =>
        rw [hr] at h
        injection h with h2
        cases h2
        exact List.mem_cons_self a l
      | some cd =>
        rw [hr] at h
        dsimp only at h
        split at h
        · injection h with h2
          cases h2
          exact List.mem_cons_self a l
        · injection h with h2
          subst h2
          exact List.mem_cons_of_mem _ (ih c d hr)
    · exact List.mem_cons_of_mem _ (ih c d h)

lemma matchedCell_mem {cfg : Config} {m : ℚ × ℚ} {t : Track} {cs : List Cell} {c : Cell}
    (h : matchedCell cfg m cs t = some c) : c ∈ cs := by
  unfold matchedCell at h
  obtain ⟨⟨c0, d0⟩, h1, h2⟩ := Option.map_eq_some'.mp h
  cases h2
  exact bestMatch_mem cfg m t cs c0 d0 h1

lemma loop_preserves (cfg : Config) (P : Store → Prop) (Q : List Cell → Prop)
    (hstep : ∀ m cs st, Q cs → P st → P (stepStore cfg m cs st)) :
    ∀ (rest : List (List Cell)) (p q : List Cell) (st : Store),
      (∀ cs ∈ rest, Q cs) → P st → P (loop cfg p q rest st) := by
  intro rest
  induction rest with
  | nil => intro p q st _ hP; exact hP
  | cons c rest ih =>
    intro p q st hQ hP
    rw [loop]
    exact ih q c _ (fun cs h => hQ cs (List.mem_cons_of_mem _ h))
      (hstep _ _ _ (hQ c (List.mem_cons_self c rest)) hP)

/-! ## Store invariants preserved by the Associator -/

lemma stepStore_mem {cfg : Config} {m : ℚ × ℚ} {cs : List Cell} {st : Store} {tr : Track}
    (h : tr ∈ (stepStore cfg m cs st).tracks) :
    (∃ t0 ∈ st.tracks, tr = updateTrack cfg m cs st.tracks t0) ∨
    (∃ p ∈ enumFromN st.nextId
        (cs.filter (fun c => decide (claimants cfg m cs st.tracks c = []))),
      tr = { id := p.1, cells := [⟨p.1, p.2⟩], status := TrackStatus.active, misses := 0 }) := by
  unfold stepStore at h
  rcases List.mem_append.mp h with h | h
  · obtain ⟨t0, ht0, he⟩ := List.mem_map.mp h
    exact Or.inl ⟨t0, ht0, he.symm⟩
  · obtain ⟨p, hp, he⟩ := List.mem_map.mp h
    exact Or.inr ⟨p, hp, he.symm⟩

lemma stepStore_cell_prop {A : Cell → Prop} {cfg : Config} {m : ℚ × ℚ} {cs : List Cell}
    {st : Store} (hst : ∀ tr ∈ st.tracks, ∀ r ∈ tr.cells, A r.cell)
    (hcs : ∀ c ∈ cs, A c) :
    ∀ tr ∈ (stepStore cfg m cs st).tracks, ∀ r ∈ tr.cells, A r.cell := by
  intro tr htr r hr
  rcases stepStore_mem htr with ⟨t0, ht0, he⟩ | ⟨p, hp, he⟩
  · subst he
    rcases updateTrack_cells_eq cfg m cs st.tracks t0 with hc | ⟨c, hmc, hc⟩
    · rw [hc] at hr
      exact hst t0 ht0 r hr
    · rw [hc] at hr
      rcases List.mem_append.mp hr with hr | hr
      · exact hst t0 ht0 r hr
      · rcases List.mem_singleton.mp hr with rfl
        exact hcs c (matchedCell_mem hmc)
  · subst he
    rcases List.mem_singleton.mp hr with rfl
    obtain ⟨_, _, hmem⟩ := enumFromN_mem hp
    exact hcs p.2 (List.mem_filter.mp hmem).1

/-- The ID-allocation invariant of the Track Store: every track ID is below
the allocator and the IDs of the recorded tracks are pairwise distinct. -/
def idInv (st : Store) : Prop :=
  (∀ tr ∈ st.tracks, tr.id < st.nextId) ∧ (st.tracks.map Track.id).Nodup

lemma stepStore_map_id (cfg : Config) (m : ℚ × ℚ) (cs : List Cell) (st : Store) :
    (stepStore cfg m cs st).tracks.map Track.id =
      st.tracks.map Track.id ++
        List.range' st.nextId
          (cs.filter (fun c => decide (claimants cfg m cs st.tracks c = []))).length := by
  unfold stepStore
  rw [List.map_append, List.map_map, List.map_map]
  congr 1
  · exact List.map_congr_left (fun t _ => updateTrack_id cfg m cs st.tracks t)
  · rw [show ((Track.id ∘ fun ic : Nat × Cell =>
        { id := ic.1, cells := [⟨ic.1, ic.2⟩], status := TrackStatus.active,
          misses := 0 : Track })) = Prod.fst from rfl]
    exact enumFromN_map_fst _ _

lemma stepStore_nextId (cfg : Config) (m : ℚ × ℚ) (cs : List Cell) (st : Store) :
    (stepStore cfg m cs st).nextId =
      st.nextId +
        (cs.filter (fun c => decide (claimants cfg m cs st.tracks c = []))).length := rfl

lemma stepStore_idInv {cfg : Config} (m : ℚ × ℚ) (cs : List Cell) {st : Store}
    (h : idInv st) : idInv (stepStore cfg m cs st) := by
  obtain ⟨hlt, hnd⟩ := h
  constructor
  · intro tr htr
    rw [stepStore_nextId]
    rcases stepStore_mem htr with ⟨t0, ht0, he⟩ | ⟨p, hp, he⟩
    · subst he
      rw [updateTrack_id]
      exact lt_of_lt_of_le (hlt t0 ht0) (Nat.le_add_right _ _)
    · subst he
      obtain ⟨h1, h2, _⟩ := enumFromN_mem hp
      simpa using h2
  · rw [stepStore_map_id]
    refine hnd.append (List.nodup_range' _ _) ?_
    intro a ha hb
    obtain ⟨t0, ht0, he⟩ := List.mem_map.mp ha
    have h1 : a < st.nextId := he ▸ hlt t0 ht0
    have h2 : st.nextId ≤ a := (List.mem_range'_1.mp hb).1
    omega

/-- The per-row ID invariant of the Track Store: every track's Cell sequence
is non-empty and every row carries the track's own ID. -/
def rowInv (st : Store) : Prop :=
  ∀ tr ∈ st.tracks, tr.cells ≠ [] ∧ ∀ r ∈ tr.cells, r.id = tr.id

lemma stepStore_rowInv {cfg : Config} (m : ℚ × ℚ) (cs : List Cell) {st : Store}
    (h : rowInv st) : rowInv (stepStore cfg m cs st) := by
  intro tr htr
  rcases stepStore_mem htr with ⟨t0, ht0, he⟩ | ⟨p, hp, he⟩
  · obtain ⟨hne, hid⟩ := h t0 ht0
    subst he
    rcases updateTrack_cells_eq cfg m cs st.tracks t0 with hc | ⟨c, _, hc⟩
    · rw [hc, updateTrack_id]
      exact ⟨hne, hid⟩
    · rw [hc, updateTrack_id]
      refine ⟨by simp, ?_⟩
      intro r hr
      rcases List.mem_append.mp hr with hr | hr
      · exact hid r hr
      · rcases List.mem_singleton.mp hr with rfl
        rfl
  · subst he
    refine ⟨by simp, ?_⟩
    intro r hr
    rcases List.mem_singleton.mp hr with rfl
    rfl

/-! ## Unfolding the tracking entry point -/

lemma dating_ok_cases {v : List NDArray} {ts : List Nat} {cfg : Config} {res : DatingResult}
    (h : dating v ts cfg = Except.ok res) :
    ∃ dets, detectAll cfg ts v 0 = Except.ok dets ∧
      res.cells = dets.map Prod.fst ∧
      (res.tracks = [] ∨ ∃ d0 d1 rest, dets.map Prod.fst = d0 :: d1 :: rest ∧
        res.tracks = (loop cfg d0 d1 rest ⟨[], 0⟩).tracks) := by
  unfold dating at h
  split at h
  · exact Except.noConfusion h
  · cases hd : detectAll cfg ts v 0 with
    | error e => rw [hd] at h; exact Except.noConfusion h
    | ok dets =>
      rw [hd] at h
      dsimp only at h
      refine ⟨dets, rfl, ?_⟩
      cases hcl : dets.map Prod.fst with
      | nil =>
        rw [hcl] at h
        injection h with h2
        subst h2
        exact ⟨rfl, Or.inl rfl⟩
      | cons d0 l1 =>
        cases l1 with
        | nil =>
          rw [hcl] at h
          injection h with h2
          subst h2
          exact ⟨rfl, Or.inl rfl⟩
        | cons d1 rest =>
          rw [hcl] at h
          injection h with h2
          subst h2
          exact ⟨rfl, Or.inr ⟨d0, d1, rest, rfl, rfl⟩⟩

lemma detectAll_ok_of_rank2 {cfg : Config} {ts : List Nat} :
    ∀ (gs : List NDArray) (i : Nat), (∀ g ∈ gs, g.shape.length = 2) →
      ∃ ds, detectAll cfg ts gs i = Except.ok ds := by
  intro gs
  induction gs with
  | nil => intro i _; exact ⟨[], rfl⟩
  | cons g gs ih =>
    intro i h2
    obtain ⟨ds, hds⟩ := ih (i + 1) (fun g hg => h2 g (List.mem_cons_of_mem _ hg))
    refine ⟨extractCells g cfg.thr cfg.minsize (ts.getD i 0) :: ds, ?_⟩
    unfold detectAll detection segment
    rw [if_pos (h2 g (List.mem_cons_self g gs))]
    dsimp only
    rw [hds]

lemma dating_ok_of_rank2 (v : List NDArray) (ts : List Nat) (cfg : Config)
    (h3 : 3 ≤ v.length) (h2 : ∀ g ∈ v, g.shape.length = 2) :
    ∃ res, dating v ts cfg = Except.ok res := by
  obtain ⟨ds, hds⟩ := detectAll_ok_of_rank2 v 0 h2
  unfold dating
  rw [if_neg (by omega), hds]
  dsimp only
  cases ds.map Prod.fst with
  | nil => exact ⟨_, rfl⟩
  | cons d0 l1 =>
    cases l1 with
    | nil => exact ⟨_, rfl⟩
    | cons d1 rest => exact ⟨_, rfl⟩

/-! ## The size filter of the Cell Extractor -/

lemma extractCells_area (g : NDArray) (thr : ℚ) (minsize : Nat) (time : Nat) :
    ∀ c ∈ (extractCells g thr minsize time).1, minsize ≤ c.area := by
  intro c hc
  unfold extractCells at hc
  dsimp only at hc
  obtain ⟨p, hp, he⟩ := List.mem_map.mp hc
  obtain ⟨_, _, hmem⟩ := enumFromN_mem hp
  have hk := (List.mem_filter.mp hmem).2
  rw [← he]
  simpa using hk

lemma detection_ok_area {g : NDArray} {time : Nat} {cfg : Config}
    {cells : List Cell} {labels : List (List Nat)}
    (h : detection g time cfg = Except.ok (cells, labels)) :
    ∀ c ∈ cells, cfg.minsize ≤ c.area := by
  unfold detection at h
  cases hs : segment g cfg.thr with
  | error e => rw [hs] at h; exact Except.noConfusion h
  | ok m =>
    rw [hs] at h
    injection h with h2
    have hc : cells = (extractCells g cfg.thr cfg.minsize time).1 := by
      rw [h2]
    rw [hc]
    exact extractCells_area g cfg.thr cfg.minsize time

lemma detectAll_ok_area {cfg : Config} {ts : List Nat} :
    ∀ {gs : List NDArray} {i : Nat} {ds : List (List Cell × List (List Nat))},
      detectAll cfg ts gs i = Except.ok ds →
      ∀ d ∈ ds, ∀ c ∈ d.1, cfg.minsize ≤ c.area := by
  intro gs
  induction gs with
  | nil =>
    intro i ds h d hd
    injection h with h2
    subst h2
    exact absurd hd (List.not_mem_nil d)
  | cons g gs ih =>
    intro i ds h d hd
    unfold detectAll at h
    cases hdet : detection g (ts.getD i 0) cfg with
    | error e => rw [hdet] at h; exact Except.noConfusion h
    | ok d0 =>
      rw [hdet] at h
      cases hr : detectAll cfg ts gs (i + 1) with
      | error e => rw [hr] at h; exact Except.noConfusion h
      | ok ds0 =>
        rw [hr] at h
        injection h with h2
        subst h2
        rcases List.mem_cons.mp hd with rfl | hd
        · obtain ⟨c0, l0⟩ := d
          exact detection_ok_area hdet
        · exact ih hr d hd

/-! ## Computation lemmas for the single-translating-cell scenario -/

/-- The empty array, used as the default of total list indexing. -/
def emptyG : NDArray := ⟨[], []⟩

lemma detectAll_explicit {cfg : Config} {ts : List Nat} (c : Nat → Cell)
    (L : Nat → List (List Nat)) :
    ∀ (gs : List NDArray) (i : Nat),
      (∀ k, k < gs.length →
        detection (gs.getD k emptyG) (ts.getD (i + k) 0) cfg
          = Except.ok ([c (i + k)], L (i + k))) →
      detectAll cfg ts gs i =
        Except.ok ((List.range' i gs.length).map (fun k => ([c k], L k))) := by
  intro gs
  induction gs with
  | nil => intro i _; rfl
  | cons g gs ih =>
    intro i hdet
    have h0 : detection g (ts.getD i 0) cfg = Except.ok ([c i], L i) := by
      have := hdet 0 (by simp)
      simpa using this
    have htail : ∀ k, k < gs.length →
        detection (gs.getD k emptyG) (ts.getD (i + 1 + k) 0) cfg
          = Except.ok ([c (i + 1 + k)], L (i + 1 + k)) := by
      intro k hk
      have := hdet (k + 1) (by simpa using Nat.succ_lt_succ hk)
      rw [show i + (k + 1) = i + 1 + k by omega] at this
      simpa using this
    unfold detectAll
    rw [h0, ih (i + 1) htail, List.length_cons, List.range'_succ, List.map_cons]

lemma motionEstimate_single (a b : Cell) :
    motionEstimate [a] [b] =
      (b.centroid.1 - a.centroid.1, b.centroid.2 - a.centroid.2) := by
  simp [motionEstimate, meanCentroid]

lemma stepStore_empty_birth (cfg : Config) (m : ℚ × ℚ) (c : Cell) :
    stepStore cfg m [c] ⟨[], 0⟩ =
      ⟨[⟨0, [⟨0, c⟩], TrackStatus.active, 0⟩], 1⟩ := rfl

lemma cheb_self (p : ℚ × ℚ) : cheb p p = 0 := by
  simp [cheb]

lemma bestMatch_singleton_hit {cfg : Config} {m : ℚ × ℚ} {c0 : Cell} {t : Track}
    (hpred : predict m t = c0.centroid) (hgate : 0 ≤ cfg.gate) :
    bestMatch cfg m t [c0] = some (c0, 0) := by
  simp only [bestMatch]
  rw [hpred, cheb_self]
  rw [if_pos hgate]

lemma stepStore_singleton_hit (cfg : Config) (m : ℚ × ℚ) (c0 : Cell) (tr : Track) (n : Nat)
    (ha : tr.status = TrackStatus.active)
    (hpred : predict m tr = c0.centroid)
    (hgate : 0 ≤ cfg.gate) :
    stepStore cfg m [c0] ⟨[tr], n⟩ =
      ⟨[{ tr with cells := tr.cells ++ [⟨tr.id, c0⟩], misses := 0 }], n⟩ := by
  have hm : matchedCell cfg m [c0] tr = some c0 := by
    unfold matchedCell
    rw [bestMatch_singleton_hit hpred hgate]
    rfl
  have hcl : claimants cfg m [c0] [tr] c0 = [tr] := by
    unfold claimants
    rw [List.filter_cons]
    rw [if_pos (by simp [ha, hm])]
    rfl
  have hw : winnerId cfg m [c0] [tr] c0 = some tr.id := by
    unfold winnerId
    rw [hcl]
    rfl
  have hu : updateTrack cfg m [c0] [tr] tr =
      { tr with cells := tr.cells ++ [⟨tr.id, c0⟩], misses := 0 } := by
    unfold updateTrack
    rw [if_neg (by rw [ha]; intro hh; exact TrackStatus.noConfusion hh)]
    rw [hm]
    dsimp only
    rw [if_pos hw]
  unfold stepStore
  dsimp only
  rw [List.filter_cons, if_neg (by simp [hcl]), List.filter_nil]
  simp only [List.map_cons, List.map_nil, enumFromN, List.append_nil, List.length_nil,
    Nat.add_zero]
  rw [hu]

lemma loop_single_aux (cfg : Config) (c : Nat → Cell) (off : ℚ × ℚ)
    (hmv : ∀ k, (c (k + 1)).centroid =
      ((c k).centroid.1 + off.1, (c k).centroid.2 + off.2))
    (hgate : 0 ≤ cfg.gate) :
    ∀ (j k : Nat) (rows : List CellRow),
      rows.getLast? = some ⟨0, c (k + 1)⟩ →
      loop cfg [c k] [c (k + 1)] ((List.range' (k + 2) j).map (fun i => [c i]))
        ⟨[⟨0, rows, TrackStatus.active, 0⟩], 1⟩ =
      ⟨[⟨0, rows ++ (List.range' (k + 2) j).map (fun i => (⟨0, c i⟩ : CellRow)),
         TrackStatus.active, 0⟩], 1⟩ := by
  intro j
  induction j with
  | zero =>
    intro k rows _
    simp [loop]
  | succ j ih =>
    intro k rows hlast
    rw [List.range'_succ, List.map_cons, loop]
    have hmot : motionEstimate [c k] [c (k + 1)] = (off.1, off.2) := by
      rw [motionEstimate_single, hmv k]
      dsimp only
      rw [add_sub_cancel_left, add_sub_cancel_left]
    have hpred : predict (off.1, off.2) ⟨0, rows, TrackStatus.active, 0⟩ =
        (c (k + 2)).centroid := by
      unfold predict lastCentroid
      dsimp only
      rw [hlast]
      dsimp only
      rw [hmv (k + 1)]
    rw [hmot, stepStore_singleton_hit cfg (off.1, off.2) (c (k + 2))
      ⟨0, rows, TrackStatus.active, 0⟩ 1 rfl hpred hgate]
    have := ih (k + 1) (rows ++ [⟨0, c (k + 2)⟩]) (by rw [List.getLast?_concat])
    rw [show k + 1 + 2 = k + 3 by omega] at this
    rw [show k + 2 + 1 = k + 3 by omega]
    dsimp only at this ⊢
    rw [this, List.append_assoc]
    rfl

/-! ## Concrete inputs used by witnesses and counterexamples -/

/-- A 1×3 grid whose middle pixel is weaker than its ends: one component at
threshold 3, two components at threshold 4. -/
def gSplit : NDArray := ⟨[1, 3], [5, 3, 5]⟩

/-- A rank-1 (malformed) input array. -/
def gBad : NDArray := ⟨[3], [1, 2, 3]⟩

/-- Number of Cells detected in a grid at a fixed threshold (minimum size 1). -/
def numCells (g : NDArray) (thr : ℚ) : Nat :=
  match detection g 0 ⟨thr, 1, 0, 0⟩ with
  | Except.ok cl => cl.1.length
  | Except.error _ => 0

/-- Frame `k` of a 4-frame test video: a single bright pixel at column `k`
of a 1×6 grid. -/
def frameW (k : Nat) : NDArray :=
  ⟨[1, 6], (List.range 6).map (fun j => if j = k then (9 : ℚ) else 0)⟩

/-- The 4-frame test video with one cell translating by (0, 1) per frame. -/
def vidW : List NDArray := [frameW 0, frameW 1, frameW 2, frameW 3]

/-- Timestamps of the test video. -/
def tsW : List Nat := [0, 1, 2, 3]

/-- Test configuration: threshold 5, minimum size 1, gate 5, no miss
tolerance. -/
def cfgW : Config := ⟨5, 1, 5, 0⟩

/-- The single foreground pixel of frame `k` of the test video. -/
def ptW (k : Nat) : List (Nat × Nat) := [(0, k)]

/-- The Cell detected in frame `k` of the test video. -/
def cellW (k : Nat) : Cell :=
  ⟨1, centroidOf (ptW k), 1, maxIntensity (frameW k) (ptW k),
   meanIntensity (frameW k) (ptW k), k, ptW k⟩

/-- The label array of frame `k` of the test video. -/
def labelW (k : Nat) : List (List Nat) :=
  [(List.range 6).map (fun j => if j = k then 1 else 0)]

/-! ## The claims -/

/-- C1: the full detection-and-tracking pipeline is deterministic — two runs
of `dating` on identical input sequences, timestamps and configurations
produce identical results (label arrays, Cell lists and Track ID assignments
included). -/
theorem dating_deterministic (v1 v2 : List NDArray) (ts1 ts2 : List Nat)
    (cfg1 cfg2 : Config) (hv : v1 = v2) (ht : ts1 = ts2) (hc : cfg1 = cfg2) :
    dating v1 ts1 cfg1 = dating v2 ts2 cfg2 := by
  subst hv
  subst ht
  subst hc
  rfl

/-- Witness for C1 at the concrete test video. -/
theorem dating_deterministic_witness :
    dating vidW tsW cfgW = dating vidW tsW cfgW :=
  dating_deterministic vidW vidW tsW tsW cfgW cfgW rfl rfl rfl

/-- C5: the tracking entry point fails with the insufficient-history error
exactly when the input sequence has fewer than 3 frames (and then produces no
output at all); for 3 or more frames that error is never raised. -/
theorem dating_insufficient_history (v : List NDArray) (ts : List Nat) (cfg : Config) :
    dating v ts cfg = Except.error PipeError.insufficientHistory ↔ v.length < 3 := by
  constructor
  · intro h
    by_contra hn
    unfold dating at h
    rw [if_neg hn] at h
    cases hd : detectAll cfg ts v 0 with
    | error e =>
      rw [hd] at h
      injection h with h2
      have := detectAll_error_eq v 0 hd
      subst h2
      exact PipeError.noConfusion this
    | ok dets =>
      rw [hd] at h
      dsimp only at h
      cases hcl : dets.map Prod.fst with
      | nil => rw [hcl] at h; exact Except.noConfusion h
      | cons d0 l1 =>
        cases l1 with
        | nil => rw [hcl] at h; exact Except.noConfusion h
        | cons d1 rest => rw [hcl] at h; exact Except.noConfusion h
  · intro h
    unfold dating
    rw [if_pos h]

/-- Witness for C5: the empty sequence is rejected with the
insufficient-history error. -/
theorem dating_insufficient_history_witness :
    dating [] [] cfgW = Except.error PipeError.insufficientHistory :=
  (dating_insufficient_history [] [] cfgW).mpr (by decide)

/-- C9: the Segmenter succeeds on every 2-D grid, returning a Mask of the
grid's shape (it is a pure function, hence side-effect free), and it fails —
with the input-validation error and no partial output — exactly when the
grid is not 2-D.  (Grid values and thresholds are rationals in this model,
so every threshold is finite.) -/
theorem segment_shape_and_validation (g : NDArray) (thr : ℚ) :
    (g.shape.length = 2 → ∃ mk, segment g thr = Except.ok mk ∧ mk.shape = g.shape) ∧
    ((∃ e, segment g thr = Except.error e) ↔ g.shape.length ≠ 2) := by
  refine ⟨?_, ?_, ?_⟩
  · intro h2
    refine ⟨⟨g.shape, g.data.map (fun x => decide (thr ≤ x))⟩, ?_, rfl⟩
    unfold segment
    rw [if_pos h2]
  · rintro ⟨e, he⟩ h2
    unfold segment at he
    rw [if_pos h2] at he
    exact Except.noConfusion he
  · intro h2
    refine ⟨PipeError.invalidInput, ?_⟩
    unfold segment
    rw [if_neg h2]

/-- Witness for C9: a well-formed 2-D grid yields a Mask of its shape, and a
rank-1 array is rejected. -/
theorem segment_shape_and_validation_witness :
    (∃ mk, segment gSplit 3 = Except.ok mk ∧ mk.shape = gSplit.shape) ∧
    (∃ e, segment gBad 3 = Except.error e) :=
  ⟨(segment_shape_and_validation gSplit 3).1 (by decide),
   (segment_shape_and_validation gBad 3).2.mpr (by decide)⟩

/-- C7: a frame with zero detected Cells is not an error: the allocator does
not move (no track is born), and every ACTIVE track accrues exactly one miss,
terminating exactly when the miss tolerance is exceeded, while terminated
tracks stay untouched. -/
theorem zero_cell_frame (cfg : Config) (m : ℚ × ℚ) (st : Store) :
    (stepStore cfg m [] st).nextId = st.nextId ∧
    (stepStore cfg m [] st).tracks = st.tracks.map (fun t =>
      if t.status = TrackStatus.active then
        { t with misses := t.misses + 1
                 status := if cfg.maxMiss < t.misses + 1 then TrackStatus.terminated
                           else TrackStatus.active }
      else t) := by
  constructor
  · rfl
  · show (st.tracks.map (updateTrack cfg m [] st.tracks)) ++ [] = _
    rw [List.append_nil]
    apply List.map_congr_left
    intro t _
    unfold updateTrack
    cases ht : t.status with
    | terminated =>
      rw [if_pos rfl, if_neg (fun hh => TrackStatus.noConfusion hh)]
    | active =>
      rw [if_neg (fun hh => TrackStatus.noConfusion hh), if_pos rfl]
      rfl

/-- C3 counterexample: in fixed-threshold mode, raising the threshold from 3
to 4 on the grid `gSplit` splits one detected Cell into two, so the number of
detected Cells increases. -/
theorem threshold_cells_not_antitone :
    (3 : ℚ) ≤ 4 ∧ numCells gSplit 3 = 1 ∧ numCells gSplit 4 = 2 ∧
      ¬ numCells gSplit 4 ≤ numCells gSplit 3 := by
  refine ⟨by norm_num, by decide, by decide, by decide⟩

/-- C3 (amended): in fixed-threshold mode, raising the threshold never
increases the number of foreground pixels of a frame (the foreground of the
higher threshold is contained in that of the lower); the Cell count itself
can grow when a component splits. -/
theorem threshold_foreground_antitone (g : NDArray) (t1 t2 : ℚ) (h : t1 ≤ t2) :
    (fgList g t2).length ≤ (fgList g t1).length := by
  unfold fgList
  rw [← List.countP_eq_length_filter, ← List.countP_eq_length_filter]
  apply List.countP_mono_left
  intro p _ hp
  have h2 : t2 ≤ entry g p := of_decide_eq_true hp
  exact decide_eq_true (le_trans h h2)

/-- Witness for the amended C3 at the concrete grid. -/
theorem threshold_foreground_antitone_witness :
    (fgList gSplit 4).length ≤ (fgList gSplit 3).length :=
  threshold_foreground_antitone gSplit 3 4 (by norm_num)

/-- C2: the size filter — every Cell in the detection output has area at
least `minsize`, and so does every Cell stored inside any Track (or listed in
the per-frame Cell lists) produced by the tracking entry point; components
below the minimum size never emit a Cell anywhere. -/
theorem min_size_filter (cfg : Config) (g : NDArray) (time : Nat)
    (v : List NDArray) (ts : List Nat) :
    (∀ cells labels, detection g time cfg = Except.ok (cells, labels) →
      ∀ c ∈ cells, cfg.minsize ≤ c.area) ∧
    (∀ res, dating v ts cfg = Except.ok res →
      (∀ fr ∈ res.cells, ∀ c ∈ fr, cfg.minsize ≤ c.area) ∧
      ∀ tr ∈ res.tracks, ∀ r ∈ tr.cells, cfg.minsize ≤ r.cell.area) := by
  constructor
  · intro cells labels h
    exact detection_ok_area h
  · intro res h
    obtain ⟨dets, hdets, hcells, htr⟩ := dating_ok_cases h
    have hall : ∀ d ∈ dets, ∀ c ∈ d.1, cfg.minsize ≤ c.area := detectAll_ok_area hdets
    constructor
    · intro fr hfr c hc
      rw [hcells] at hfr
      obtain ⟨d, hd, he⟩ := List.mem_map.mp hfr
      exact hall d hd c (he ▸ hc)
    · rcases htr with htr | ⟨d0, d1, rest, hmap, htr⟩
      · rw [htr]
        intro tr h
        exact absurd h (List.not_mem_nil tr)
      · rw [htr]
        have hQ : ∀ cs ∈ rest, ∀ c ∈ cs, cfg.minsize ≤ c.area := by
          intro cs hcs c hc
          have : cs ∈ dets.map Prod.fst := by
            rw [hmap]
            exact List.mem_cons_of_mem _ (List.mem_cons_of_mem _ hcs)
          obtain ⟨d, hd, he⟩ := List.mem_map.mp this
          exact hall d hd c (he ▸ hc)
        have := loop_preserves cfg
          (fun st => ∀ tr ∈ st.tracks, ∀ r ∈ tr.cells, cfg.minsize ≤ r.cell.area)
          (fun cs => ∀ c ∈ cs, cfg.minsize ≤ c.area)
          (fun m cs st hq hp => stepStore_cell_prop hp hq)
          rest d0 d1 ⟨[], 0⟩ hQ (by intro tr h; exact absurd h (List.not_mem_nil tr))
        exact this

/-- Witness for C2: in the test video's first frame, the detected Cell's
area meets the configured minimum size. -/
theorem min_size_filter_witness : cfgW.minsize ≤ (cellW 0).area :=
  (min_size_filter cfgW (frameW 0) 0 vidW tsW).1 [cellW 0] (labelW 0) rfl
    (cellW 0) (List.mem_singleton.mpr rfl)

/-- C4: track IDs are allocated by a monotonically increasing counter — the
per-frame step never decreases the Track Store's allocator, and in any result
of the tracking entry point the IDs of all tracks (terminated ones included,
since the Store never deletes a track) are pairwise distinct, so no ID is
ever shared or reused. -/
theorem track_ids_unique (v : List NDArray) (ts : List Nat) (cfg : Config) :
    (∀ (m : ℚ × ℚ) (cs : List Cell) (st : Store),
      st.nextId ≤ (stepStore cfg m cs st).nextId) ∧
    (∀ res, dating v ts cfg = Except.ok res → (res.tracks.map Track.id).Nodup) := by
  constructor
  · intro m cs st
    rw [stepStore_nextId]
    exact Nat.le_add_right _ _
  · intro res h
    obtain ⟨dets, hdets, hcells, htr⟩ := dating_ok_cases h
    rcases htr with htr | ⟨d0, d1, rest, hmap, htr⟩
    · rw [htr]
      exact List.nodup_nil
    · rw [htr]
      have := loop_preserves cfg idInv (fun _ => True)
        (fun m cs st _ hp => stepStore_idInv m cs hp)
        rest d0 d1 ⟨[], 0⟩ (fun _ _ => trivial)
        ⟨fun tr h => absurd h (List.not_mem_nil tr), List.nodup_nil⟩
      exact this.2

/-- Witness for C4 at the concrete test video. -/
theorem track_ids_unique_witness :
    ∃ res, dating vidW tsW cfgW = Except.ok res ∧ (res.tracks.map Track.id).Nodup := by
  obtain ⟨res, hres⟩ := dating_ok_of_rank2 vidW tsW cfgW
    (by decide) (by decide)
  exact ⟨res, hres, (track_ids_unique vidW tsW cfgW).2 res hres⟩

/-- C10: every Track returned by the tracking entry point carries exactly one
ID across all of its Cell rows — its row sequence is non-empty and
deduplicating the row-ID column yields exactly the track's own ID. -/
theorem track_single_id (v : List NDArray) (ts : List Nat) (cfg : Config)
    (res : DatingResult) (h : dating v ts cfg = Except.ok res) :
    ∀ tr ∈ res.tracks, tr.cells ≠ [] ∧ (tr.cells.map CellRow.id).dedup = [tr.id] := by
  have hded : ∀ (l : List Nat) (a : Nat), l ≠ [] → (∀ x ∈ l, x = a) → l.dedup = [a] := by
    intro l
    induction l with
    | nil => intro a h _; exact absurd rfl h
    | cons x l ih =>
      intro a _ hall
      have hx : x = a := hall x (List.mem_cons_self x l)
      subst hx
      cases l with
      | nil => rfl
      | cons y l2 =>
        have hy : y = x := by
          have := hall y (List.mem_cons_of_mem _ (List.mem_cons_self y l2))
          have hx2 := hall x (List.mem_cons_self x _)
          rw [this, hx2]
        have hded2 : (y :: l2).dedup = [x] := by
          apply ih
          · intro hh; exact List.noConfusion hh
          · intro z hz; exact hall z (List.mem_cons_of_mem _ hz)
        rw [List.dedup_cons_of_mem, hded2]
        have : x ∈ (y :: l2).dedup := by rw [hded2]; exact List.mem_singleton.mpr rfl
        exact (List.mem_dedup).mp this
  obtain ⟨dets, hdets, hcells, htr⟩ := dating_ok_cases h
  have hrow : ∀ tr ∈ res.tracks, tr.cells ≠ [] ∧ ∀ r ∈ tr.cells, r.id = tr.id := by
    rcases htr with htr | ⟨d0, d1, rest, hmap, htr⟩
    · rw [htr]
      intro tr h
      exact absurd h (List.not_mem_nil tr)
    · rw [htr]
      exact loop_preserves cfg rowInv (fun _ => True)
        (fun m cs st _ hp => stepStore_rowInv m cs hp)
        rest d0 d1 ⟨[], 0⟩ (fun _ _ => trivial)
        (fun tr h => absurd h (List.not_mem_nil tr))
  intro tr htr2
  obtain ⟨hne, hid⟩ := hrow tr htr2
  refine ⟨hne, hded _ _ ?_ ?_⟩
  · intro hh
    exact hne (List.map_eq_nil_iff.mp hh)
  · intro x hx
    obtain ⟨r, hr, he⟩ := List.mem_map.mp hx
    rw [← he]
    exact hid r hr

/-- Witness for C10 at the concrete test video. -/
theorem track_single_id_witness :
    ∃ res, dating vidW tsW cfgW = Except.ok res ∧
      ∀ tr ∈ res.tracks, tr.cells ≠ [] ∧ (tr.cells.map CellRow.id).dedup = [tr.id] := by
  obtain ⟨res, hres⟩ := dating_ok_of_rank2 vidW tsW cfgW
    (by decide) (by decide)
  exact ⟨res, hres, track_single_id vidW tsW cfgW res hres⟩

/-- C8: a merge — two ACTIVE tracks whose predictions both fall within the
gate of one single newly detected Cell — leaves exactly one survivor, the
track with the longer history, which is extended by the Cell, while the
other track is marked TERMINATED at that frame and no new track is born. -/
theorem merge_longer_history_survives (cfg : Config) (m : ℚ × ℚ) (c : Cell)
    (t1 t2 : Track) (n : Nat)
    (h1 : t1.status = TrackStatus.active) (h2 : t2.status = TrackStatus.active)
    (hlen : t2.cells.length < t1.cells.length) (hid : t1.id ≠ t2.id)
    (hg1 : cheb (predict m t1) c.centroid ≤ cfg.gate)
    (hg2 : cheb (predict m t2) c.centroid ≤ cfg.gate) :
    stepStore cfg m [c] ⟨[t1, t2], n⟩ =
      ⟨[{ t1 with cells := t1.cells ++ [⟨t1.id, c⟩], misses := 0 },
        { t2 with status := TrackStatus.terminated }], n⟩ := by
  have hb1 : bestMatch cfg m t1 [c] = some (c, cheb (predict m t1) c.centroid) := by
    simp only [bestMatch]
    rw [if_pos hg1]
  have hb2 : bestMatch cfg m t2 [c] = some (c, cheb (predict m t2) c.centroid) := by
    simp only [bestMatch]
    rw [if_pos hg2]
  have hm1 : matchedCell cfg m [c] t1 = some c := by
    unfold matchedCell
    rw [hb1]
    rfl
  have hm2 : matchedCell cfg m [c] t2 = some c := by
    unfold matchedCell
    rw [hb2]
    rfl
  have hcl : claimants cfg m [c] [t1, t2] c = [t1, t2] := by
    unfold claimants
    rw [List.filter_cons, if_pos (by simp [h1, hm1]), List.filter_cons,
      if_pos (by simp [h2, hm2]), List.filter_nil]
  have hw : winnerId cfg m [c] [t1, t2] c = some t1.id := by
    unfold winnerId
    rw [hcl]
    show (match pickWinner [t2] with
      | none => some t1
      | some u => if betterClaim u t1 then some u else some t1).map Track.id = some t1.id
    show (if betterClaim t2 t1 then some t2 else some t1).map Track.id = some t1.id
    rw [if_neg ?_]
    · rfl
    · unfold betterClaim
      simp only [decide_eq_true_eq]
      push_neg
      exact ⟨by omega, fun h => absurd h (by omega)⟩
  have hu1 : updateTrack cfg m [c] [t1, t2] t1 =
      { t1 with cells := t1.cells ++ [⟨t1.id, c⟩], misses := 0 } := by
    unfold updateTrack
    rw [if_neg (by rw [h1]; intro hh; exact TrackStatus.noConfusion hh), hm1]
    dsimp only
    rw [if_pos hw]
  have hu2 : updateTrack cfg m [c] [t1, t2] t2 =
      { t2 with status := TrackStatus.terminated } := by
    unfold updateTrack
    rw [if_neg (by rw [h2]; intro hh; exact TrackStatus.noConfusion hh), hm2]
    dsimp only
    rw [if_neg (by rw [hw]; intro hh; injection hh with hh2; exact hid hh2)]
  unfold stepStore
  dsimp only
  rw [List.filter_cons, if_neg (by simp [hcl]), List.filter_nil]
  simp only [List.map_cons, List.map_nil, enumFromN, List.append_nil, List.length_nil,
    Nat.add_zero]
  rw [hu1, hu2]

/-- The two-cell-history track used in the C8 witness. -/
def tW1 : Track :=
  ⟨3, [⟨3, ⟨1, (0, 0), 1, 9, 9, 0, [(0, 0)]⟩⟩, ⟨3, ⟨1, (0, 1), 1, 9, 9, 1, [(0, 1)]⟩⟩],
   TrackStatus.active, 0⟩

/-- The one-cell-history track used in the C8 witness. -/
def tW2 : Track := ⟨7, [⟨7, ⟨2, (2, 1), 1, 9, 9, 1, [(2, 1)]⟩⟩], TrackStatus.active, 0⟩

/-- The single Cell both tracks of the C8 witness claim. -/
def cW8 : Cell := ⟨1, (1, 1), 1, 9, 9, 2, [(1, 1)]⟩

/-- Witness for C8: a concrete merge in which the two-cell track survives and
the one-cell track is terminated. -/
theorem merge_longer_history_survives_witness :
    stepStore cfgW (0, 0) [cW8] ⟨[tW1, tW2], 9⟩ =
      ⟨[{ tW1 with cells := tW1.cells ++ [⟨tW1.id, cW8⟩], misses := 0 },
        { tW2 with status := TrackStatus.terminated }], 9⟩ :=
  merge_longer_history_survives cfgW (0, 0) cW8 tW1 tW2 9 rfl rfl
    (by norm_num [tW1, tW2]) (by norm_num [tW1, tW2])
    (by norm_num [cheb, predict, lastCentroid, tW1, cW8, cfgW])
    (by norm_num [cheb, predict, lastCentroid, tW2, cW8, cfgW])

/-- C6: for an input sequence of `N ≥ 3` frames in which detection finds a
single isolated Cell per frame whose centroid translates by the constant
offset `off`, the tracking entry point succeeds and returns exactly one
Track, it is ACTIVE, and its Cell sequence has length `N − 2` (the first two
frames only seed motion estimation). -/
theorem single_cell_track (cfg : Config) (v : List NDArray) (ts : List Nat)
    (c : Nat → Cell) (L : Nat → List (List Nat)) (off : ℚ × ℚ)
    (hN : 3 ≤ v.length)
    (hdet : ∀ k, k < v.length →
      detection (v.getD k emptyG) (ts.getD k 0) cfg = Except.ok ([c k], L k))
    (hmv : ∀ k, (c (k + 1)).centroid =
      ((c k).centroid.1 + off.1, (c k).centroid.2 + off.2))
    (hgate : 0 ≤ cfg.gate) :
    ∃ tr res, dating v ts cfg = Except.ok res ∧ res.tracks = [tr] ∧
      tr.cells.length = v.length - 2 ∧ tr.status = TrackStatus.active := by
  obtain ⟨m, hm⟩ : ∃ m, v.length = m + 3 := ⟨v.length - 3, by omega⟩
  have hdetAll : detectAll cfg ts v 0 =
      Except.ok ((List.range' 0 v.length).map
        (fun k => (([c k], L k) : List Cell × List (List Nat)))) := by
    apply detectAll_explicit c L v 0
    intro k hk
    have := hdet k hk
    simpa using this
  have hr3 : List.range' 0 (m + 3) = 0 :: 1 :: 2 :: List.range' 3 m := by
    rw [show m + 3 = (m + 2) + 1 from rfl, List.range'_succ]
    rw [show m + 2 = (m + 1) + 1 from rfl, List.range'_succ]
    rw [List.range'_succ]
  have hscrut : ((List.range' 0 v.length).map
        (fun k => (([c k], L k) : List Cell × List (List Nat)))).map Prod.fst =
      [c 0] :: [c 1] :: ([c 2] :: (List.range' 3 m).map (fun k => [c k])) := by
    rw [List.map_map, hm, hr3]
    rfl
  unfold dating
  rw [if_neg (by omega), hdetAll]
  dsimp only
  rw [hscrut]
  dsimp only
  rw [loop, stepStore_empty_birth]
  have hlast : ([(⟨0, c 2⟩ : CellRow)]).getLast? = some ⟨0, c (1 + 1)⟩ := rfl
  have hloop := loop_single_aux cfg c off hmv hgate m 1 [⟨0, c 2⟩] hlast
  norm_num at hloop
  rw [hloop]
  refine ⟨_, _, rfl, rfl, ?_, rfl⟩
  simp [List.length_range']
  omega

set_option maxHeartbeats 1000000 in
/-- Witness for C6: the concrete 4-frame translating-cell video yields one
ACTIVE track of length 2. -/
theorem single_cell_track_witness :
    ∃ tr res, dating vidW tsW cfgW = Except.ok res ∧ res.tracks = [tr] ∧
      tr.cells.length = vidW.length - 2 ∧ tr.status = TrackStatus.active := by
  have hcent : ∀ k : Nat, (cellW k).centroid = (0, (k : ℚ)) := by
    intro k
    show centroidOf (ptW k) = _
    simp [centroidOf, ptW, sumRows, sumCols]
  apply single_cell_track cfgW vidW tsW cellW labelW (0, 1)
  · decide
  · intro k hk
    have h4 : k < 4 := hk
    interval_cases k <;> rfl
  · intro k
    rw [hcent k, hcent (k + 1)]
    dsimp only
    rw [add_zero]
    push_cast
    rfl
  · norm_num [cfgW]

end Tstorm
